import Mathlib

/-!
Verification development for the ai-pr-reviewer core pipeline.

Python strings are modelled as lists of characters (`PyStr`); Python's
string methods (`split`, `strip`, `startswith`, `int(...)`) are embedded as
executable Lean functions on `PyStr`.  Machine code that can raise an
exception is embedded with `Option`/`Except` results.  Loops whose
termination depends on runtime data (the check poller, recursive-descent
JSON parsing) are embedded with an explicit fuel argument large enough to
cover every reachable execution, so that all definitions reduce in the
kernel.
-/

/-- Python strings are modelled as lists of characters. -/
abbrev PyStr := List Char

/-- Convert a Lean string literal to its `PyStr` model. -/
def pys (s : String) : PyStr := s.toList

/-- `str.strip()`: drop whitespace from both ends. -/
def pyStrip (s : PyStr) : PyStr :=
  ((s.dropWhile Char.isWhitespace).reverse.dropWhile Char.isWhitespace).reverse

/-- Fuel-driven worker for `str.split(sep)` (non-empty separator,
no maxsplit), mirroring CPython's left-to-right scan for non-overlapping
occurrences of `sep`. -/
def pySplitCore (sep : PyStr) : Nat → PyStr → List PyStr
  | 0, s => [s]
  | fuel + 1, s =>
    match s with
    | [] => [[]]
    | c :: rest =>
      if sep.isPrefixOf (c :: rest) then
        [] :: pySplitCore sep fuel ((c :: rest).drop sep.length)
      else
        match pySplitCore sep fuel rest with
        | [] => [[c]]
        | h :: t => (c :: h) :: t

/-- `str.split(sep)` for a non-empty separator. -/
def pySplit (sep s : PyStr) : List PyStr :=
  if sep = [] then [s] else pySplitCore sep (s.length + 1) s

/-- The decimal digit character for `n % 10`-style values below ten. -/
def digitChar (n : Nat) : Char :=
  match n with
  | 0 => '0' | 1 => '1' | 2 => '2' | 3 => '3' | 4 => '4'
  | 5 => '5' | 6 => '6' | 7 => '7' | 8 => '8' | _ => '9'

/-- Fuel-driven worker rendering a natural number in decimal. -/
def natCharsCore : Nat → Nat → PyStr
  | 0, _ => []
  | fuel + 1, n =>
    if n < 10 then [digitChar n]
    else natCharsCore fuel (n / 10) ++ [digitChar (n % 10)]

/-- Python `str(n)` for a natural number. -/
def natChars (n : Nat) : PyStr := natCharsCore (n + 1) n

/-- Value of a digit string, most significant digit first. -/
def digitsVal (ds : PyStr) : Nat :=
  ds.foldl (fun a c => a * 10 + (c.toNat - 48)) 0

/-- Parse a non-empty all-digit string. -/
def pyNatDigits? (ds : PyStr) : Option Nat :=
  if ds ≠ [] ∧ ds.all Char.isDigit then some (digitsVal ds) else none

/-- Sign handling of Python `int(...)` after stripping. -/
def pyIntCore : PyStr → Option Int
  | [] => none
  | c :: ds =>
    if c = '-' then (pyNatDigits? ds).map (fun n => -(n : Int))
    else if c = '+' then (pyNatDigits? ds).map (fun n => (n : Int))
    else (pyNatDigits? (c :: ds)).map (fun n => (n : Int))

/-- Python `int(s)` on a decimal literal; `none` models the `ValueError`
raised on malformed input. -/
def pyInt? (s : PyStr) : Option Int := pyIntCore (pyStrip s)

/-! ## Data model (src/pr_reviewer/models.py) -/

/-- `Severity` enumeration. -/
inductive Severity where
  | critical | high | medium | low
deriving DecidableEq

/-- The `.value` string of a severity member. -/
def Severity.value : Severity → PyStr
  | .critical => pys "critical"
  | .high => pys "high"
  | .medium => pys "medium"
  | .low => pys "low"

/-- `Category` enumeration. -/
inductive Category where
  | security | performance | maintainability | correctness | style
deriving DecidableEq

/-- The `.value` string of a category member. -/
def Category.value : Category → PyStr
  | .security => pys "security"
  | .performance => pys "performance"
  | .maintainability => pys "maintainability"
  | .correctness => pys "correctness"
  | .style => pys "style"

/-- `ReviewFinding` model. -/
structure ReviewFinding where
  file : PyStr
  line : Option Int
  severity : Severity
  category : Category
  title : PyStr
  description : PyStr
  suggested_fix : Option PyStr
deriving DecidableEq

/-- `FileChange` model. -/
structure FileChange where
  filename : PyStr
  status : PyStr
  patch : Option PyStr
  additions : Int
  deletions : Int
  content : Option PyStr
  sha : Option PyStr
deriving DecidableEq

/-- `PRInfo` model. -/
structure PRInfo where
  number : Nat
  title : PyStr
  body : Option PyStr
  author : PyStr
  head_branch : PyStr
  base_branch : PyStr
  head_sha : PyStr
  labels : List PyStr
  files : List FileChange
deriving DecidableEq

/-- `TestResult` model. -/
structure TestResult where
  name : PyStr
  status : PyStr
  conclusion : Option PyStr
deriving DecidableEq

/-- `ReviewConfig` model (the fields the core pipeline reads; the labels
dictionary is embedded as its two accessed entries). -/
structure ReviewConfig where
  min_severity : Severity
  max_findings_per_file : Nat
  max_total_findings : Nat
  exclude_patterns : List PyStr
  labels_fix : PyStr
  labels_automated : PyStr
  fix_enabled : Bool
  fix_branch_prefix : PyStr
  fix_max_files_per_pr : Nat
  test_check_enabled : Bool
  test_check_timeout : Nat
  test_check_poll_interval : Nat
deriving DecidableEq

/-! ## Finding Aggregator (src/pr_reviewer/reviewer.py, review_pr)

The Anthropic client, prompts and single-file review call are external
collaborators; `reviewFile` abstracts `_review_file` (which already maps
API errors to an empty finding list). -/

/-- The `severity_order` list from `review_pr`. -/
def severity_order : List PyStr :=
  [pys "critical", pys "high", pys "medium", pys "low"]

/-- Ordinal of a severity value in `severity_order` (Python `list.index`;
every `Severity.value` occurs in the list, so the `ValueError` branch is
unreachable). -/
def sevIdx (s : Severity) : Nat := severity_order.indexOf s.value

/-- The final minimum-severity filter of `review_pr` (lines 63-66). -/
def filterBySeverity (findings : List ReviewFinding) (minSev : Severity) :
    List ReviewFinding :=
  findings.filter (fun f => sevIdx f.severity ≤ sevIdx minSev)

/-- The per-file loop of `review_pr` (lines 45-61): accumulate findings,
breaking before a file when the running total has reached `maxTotal`.
Returns the accumulated findings and the list of files actually sent to
the model. -/
def reviewLoop (reviewFile : FileChange → List ReviewFinding) (maxTotal : Nat) :
    List FileChange → List ReviewFinding → List ReviewFinding × List FileChange
  | [], acc => (acc, [])
  | fc :: rest, acc =>
    if maxTotal ≤ acc.length then (acc, [])
    else
      let res := reviewLoop reviewFile maxTotal rest (acc ++ reviewFile fc)
      (res.1, fc :: res.2)

/-- `review_pr`: loop over the files, then filter by minimum severity. -/
def review_pr (reviewFile : FileChange → List ReviewFinding)
    (files : List FileChange) (cfg : ReviewConfig) : List ReviewFinding :=
  filterBySeverity (reviewLoop reviewFile cfg.max_total_findings files []).1
    cfg.min_severity

/-- The files `review_pr` actually sends to the model collaborator. -/
def review_pr_calls (reviewFile : FileChange → List ReviewFinding)
    (files : List FileChange) (cfg : ReviewConfig) : List FileChange :=
  (reviewLoop reviewFile cfg.max_total_findings files []).2

/-- Total number of findings the model oracle yields on a file list. -/
def totalFindings (reviewFile : FileChange → List ReviewFinding)
    (files : List FileChange) : Nat :=
  (files.map (fun fc => (reviewFile fc).length)).sum

/-- Modelled from the spec: the fixed total severity order
critical > high > medium > low, as a numeric rank (larger = more severe). -/
def specSevRank : Severity → Nat
  | .critical => 3
  | .high => 2
  | .medium => 1
  | .low => 0

/-- Modelled from the spec: `a` is at least as severe as `b`. -/
def sevAtLeastAsSevere (a b : Severity) : Prop := specSevRank b ≤ specSevRank a

instance (a b : Severity) : Decidable (sevAtLeastAsSevere a b) := by
  unfold sevAtLeastAsSevere; infer_instance

/-! ## Diff Filter (src/pr_reviewer/diff_parser.py) -/

/-- Character-class body items of an `fnmatch` pattern: a list of
(lo, hi) ranges, single characters being one-element ranges. -/
def ccItems : PyStr → List (Char × Char)
  | [] => []
  | [a] => [(a, a)]
  | [a, b] => [(a, a), (b, b)]
  | a :: b :: c :: rest =>
    if b = '-' then (a, c) :: ccItems rest
    else (a, a) :: ccItems (b :: c :: rest)

/-- Does a character fall in one of the class ranges? -/
def ccMatches (items : List (Char × Char)) (c : Char) : Bool :=
  items.any (fun i => i.1 ≤ c && c ≤ i.2)

/-- Scan a pattern tail for the closing `]` of a character class,
returning the class body and the remainder. -/
def ccFindClose : PyStr → Option (PyStr × PyStr)
  | [] => none
  | ']' :: r => some ([], r)
  | c :: r => (ccFindClose r).map (fun br => (c :: br.1, br.2))

/-- Parse the tail after `[`: optional `!` negation, one unconditional
character (so `]` can appear first), then up to the closing `]`.
`none` means the `[` is treated literally, as `fnmatch.translate` does. -/
def parseCC (ps : PyStr) : Option (Bool × List (Char × Char) × PyStr) :=
  match ps with
  | '!' :: c0 :: r0 => (ccFindClose r0).map (fun br => (true, ccItems (c0 :: br.1), br.2))
  | '!' :: [] => none
  | c0 :: r0 => (ccFindClose r0).map (fun br => (false, ccItems (c0 :: br.1), br.2))
  | [] => none

/-- Fuel-driven `fnmatch.fnmatchcase` matcher: `*` matches any sequence,
`?` any single character, `[...]` a character class.  The fuel strictly
exceeds `p.length + s.length`, which bounds the recursion depth. -/
def globMatchF : Nat → PyStr → PyStr → Bool
  | 0, _, _ => false
  | fu + 1, p, s =>
    match p with
    | [] => s.isEmpty
    | '*' :: ps =>
      globMatchF fu ps s ||
        (match s with
         | [] => false
         | _ :: s' => globMatchF fu ('*' :: ps) s')
    | '?' :: ps =>
      (match s with
       | [] => false
       | _ :: s' => globMatchF fu ps s')
    | '[' :: ps =>
      (match parseCC ps with
       | none =>
         (match s with
          | [] => false
          | c :: s' => (c = '[' : Bool) && globMatchF fu ps s')
       | some nir =>
         (match s with
          | [] => false
          | c :: s' => (nir.1 != ccMatches nir.2.1 c) && globMatchF fu nir.2.2 s'))
    | pc :: ps =>
      (match s with
       | [] => false
       | c :: s' => (pc = c : Bool) && globMatchF fu ps s')

/-- `fnmatch.fnmatch(name, pattern)` on a case-sensitive filesystem. -/
def fnmatch (name pattern : PyStr) : Bool :=
  globMatchF (pattern.length + name.length + 1) pattern name

/-- `_is_excluded` (diff_parser.py lines 47-55), with its redundant
second directory-pattern check kept verbatim. -/
def _is_excluded (filename : PyStr) (patterns : List PyStr) : Bool :=
  patterns.any (fun pattern =>
    fnmatch filename pattern ||
      (pattern.contains '/' && fnmatch filename pattern))

/-- `filter_files` (diff_parser.py lines 13-44). -/
def filter_files_loop (cfg : ReviewConfig) : List FileChange → List FileChange
  | [] => []
  | fc :: rest =>
    if fc.status = pys "removed" then filter_files_loop cfg rest
    else if _is_excluded fc.filename cfg.exclude_patterns then filter_files_loop cfg rest
    else if fc.patch = none then filter_files_loop cfg rest
    else fc :: filter_files_loop cfg rest

/-- `filter_files(pr_info, config)`. -/
def filter_files (pr_info : PRInfo) (cfg : ReviewConfig) : List FileChange :=
  filter_files_loop cfg pr_info.files

/-- Modelled from the spec: a file change is eligible for review iff it is
not removed, matches no exclusion pattern, and carries a patch. -/
def specEligible (cfg : ReviewConfig) (fc : FileChange) : Bool :=
  !(fc.status = pys "removed" : Bool) &&
    !(cfg.exclude_patterns.any (fun pattern => fnmatch fc.filename pattern)) &&
    fc.patch.isSome

/-! ## Patch line-range extraction (diff_parser.py lines 58-105) -/

/-- One iteration of the `parse_patch_line_numbers` loop on state
`(current_line, ranges)`; `none` models the `ValueError` that `int(...)`
raises on a malformed hunk header. -/
def processPatchLine (st : Int × List (Int × Int)) (line : PyStr) :
    Option (Int × List (Int × Int)) :=
  if (pys "@@").isPrefixOf line then
    let parts := pySplit (pys "+") line
    if 2 ≤ parts.length then
      let range_part := pyStrip ((pySplit (pys "@@") (parts.getD 1 [])).headD [])
      let tok :=
        if range_part.contains ',' then (pySplit (pys ",") range_part).headD []
        else range_part
      match pyInt? tok with
      | none => none
      | some start => some (start, st.2)
    else some st
  else if (pys "+").isPrefixOf line ∧ ¬ (pys "+++").isPrefixOf line then
    some (st.1 + 1, st.2 ++ [(st.1, st.1)])
  else if (pys "-").isPrefixOf line ∧ ¬ (pys "---").isPrefixOf line then
    some st
  else
    some (st.1 + 1, st.2)

/-- Stable insertion of a range into a list sorted by start. -/
def insertRange (x : Int × Int) : List (Int × Int) → List (Int × Int)
  | [] => [x]
  | y :: ys => if y.1 ≤ x.1 then y :: insertRange x ys else x :: y :: ys

/-- Python `sorted(ranges, key=lambda r: r[0])`: the stable sort by start,
realised as insertion sort. -/
def sortRanges : List (Int × Int) → List (Int × Int)
  | [] => []
  | x :: xs => insertRange x (sortRanges xs)

/-- The accumulation loop of `_merge_ranges`: `acc` holds the merged
ranges before the current last element `cur` (`merged[-1]` in the
source). -/
def mergeLoop (acc : List (Int × Int)) (cur : Int × Int) :
    List (Int × Int) → List (Int × Int)
  | [] => acc ++ [cur]
  | r :: rest =>
    if r.1 ≤ cur.2 + 1 then mergeLoop acc (cur.1, max cur.2 r.2) rest
    else mergeLoop (acc ++ [cur]) r rest

/-- `_merge_ranges` (diff_parser.py lines 90-105). -/
def mergeRanges (ranges : List (Int × Int)) : List (Int × Int) :=
  match sortRanges ranges with
  | [] => []
  | first :: rest => mergeLoop [] first rest

/-- `parse_patch_line_numbers` (diff_parser.py lines 58-87); `none`
models an uncaught `ValueError` from a malformed hunk header. -/
def parse_patch_line_numbers (patch : PyStr) : Option (List (Int × Int)) :=
  ((pySplit (pys "\n") patch).foldlM processPatchLine ((0 : Int), [])).map
    (fun st => mergeRanges st.2)

/-! Spec-side structured model of a unified-diff patch, used to state the
counter algorithm of §4.1 independently of the string scanning. -/

/-- A structured line of a unified-diff patch. -/
inductive DiffLine where
  | hunk (a b c d : Nat)
  | add (s : PyStr)
  | rem (s : PyStr)
  | ctx (s : PyStr)
deriving DecidableEq

/-- Render a structured diff line as patch text. -/
def renderLine : DiffLine → PyStr
  | .hunk a b c d =>
    pys "@@ -" ++ natChars a ++ [','] ++ natChars b ++ pys " +" ++
      natChars c ++ [','] ++ natChars d ++ pys " @@"
  | .add s => '+' :: s
  | .rem s => '-' :: s
  | .ctx s => ' ' :: s

/-- Well-formedness of a structured diff line: payloads span one line, an
added line does not begin `+++`, a removed line does not begin `---`. -/
def wfLine : DiffLine → Prop
  | .hunk _ _ _ _ => True
  | .add s => '\n' ∉ s ∧ ¬ (pys "++").isPrefixOf s
  | .rem s => '\n' ∉ s ∧ ¬ (pys "--").isPrefixOf s
  | .ctx s => '\n' ∉ s

instance (l : DiffLine) : Decidable (wfLine l) := by
  cases l <;> simp only [wfLine] <;> infer_instance

/-- Render a structured patch: its lines joined by newlines. -/
def renderPatch (lines : List DiffLine) : PyStr :=
  List.intercalate [ '\n' ] (lines.map renderLine)

/-- Modelled from the spec (§4.1): one step of the running-counter
algorithm.  A hunk header `@@ -a,b +c,d @@` sets the counter to `c`; an
added line records a single-line range at the counter and advances it; a
removed line leaves the counter; any other line advances it. -/
def specStep (st : Int × List (Int × Int)) : DiffLine → Int × List (Int × Int)
  | .hunk _ _ c _ => ((c : Int), st.2)
  | .add _ => (st.1 + 1, st.2 ++ [(st.1, st.1)])
  | .rem _ => st
  | .ctx _ => (st.1 + 1, st.2)

/-- Modelled from the spec (§4.1): the ranges the counter algorithm
collects over a structured patch, before merging. -/
def specCollect (lines : List DiffLine) : List (Int × Int) :=
  (lines.foldl specStep ((0 : Int), [])).2

/-! ## Check Poller (src/pr_reviewer/test_runner.py)

`polls k` is the result of the (k+1)-th `gh.get_check_runs(ref)` call; the
GitHub client is an external collaborator.  The `while` loop is embedded
with fuel `timeout + 1`: with a positive poll interval the loop body runs
at most `timeout` times, so the fuel is never exhausted; fuel exhaustion
(`none`) models divergence with a zero interval. -/

/-- The polling loop of `wait_for_checks` (lines 44-73), returning the
final result list and the total number of `get_check_runs` calls. -/
def waitLoop (polls : Nat → List TestResult) (interval timeout : Nat) :
    Nat → Nat → Nat → Option (List TestResult × Nat)
  | 0, _, _ => none
  | fuel + 1, elapsed, k =>
    if elapsed < timeout then
      let results := polls k
      if results = [] then
        waitLoop polls interval timeout fuel (elapsed + interval) (k + 1)
      else if results.all (fun r => r.status == pys "completed") then
        some (results, k + 1)
      else
        waitLoop polls interval timeout fuel (elapsed + interval) (k + 1)
    else
      some (polls k, k + 1)

/-- `wait_for_checks(gh, ref, config)`: disabled polling returns `[]`
with zero listing calls; otherwise run the loop, which on timeout fetches
once more and returns that last-fetched set. -/
def wait_for_checks (cfg : ReviewConfig) (polls : Nat → List TestResult) :
    Option (List TestResult × Nat) :=
  if cfg.test_check_enabled = false then some ([], 0)
  else
    waitLoop polls cfg.test_check_poll_interval cfg.test_check_timeout
      (cfg.test_check_timeout + 1) 0 0

/-! ## JSON values and `json.loads`

Model of the Python `json` module as used by `_extract_fixed_content` and
`_parse_findings`.  Non-integer numeric literals are kept as uninterpreted
lexemes (`numLit`); their numeric value is never consumed by the
pipeline. -/

/-- A parsed JSON value. -/
inductive Json where
  | null
  | bool (b : Bool)
  | int (n : Int)
  | numLit (s : PyStr)
  | str (s : PyStr)
  | arr (xs : List Json)
  | obj (fields : List (PyStr × Json))

/-- JSON insignificant whitespace. -/
def jWs (c : Char) : Bool := c = ' ' || c = '\t' || c = '\n' || c = '\r'

/-- Skip JSON whitespace. -/
def skipWs (s : PyStr) : PyStr := s.dropWhile jWs

/-- Is `c` a hexadecimal digit? -/
def isHexDig (c : Char) : Bool :=
  c.isDigit || ('a' ≤ c && c ≤ 'f') || ('A' ≤ c && c ≤ 'F')

/-- Numeric value of a hexadecimal digit. -/
def hexVal (c : Char) : Nat :=
  if c.isDigit then c.toNat - 48
  else if 'a' ≤ c ∧ c ≤ 'f' then c.toNat - 87
  else c.toNat - 55

/-- Parse the remainder of a JSON string literal (after the opening
quote), handling the standard escapes; `\uXXXX` maps through
`Char.ofNat`. -/
def parseJString : PyStr → PyStr → Option (PyStr × PyStr)
  | [], _ => none
  | '"' :: rest, acc => some (acc.reverse, rest)
  | '\\' :: e :: rest, acc =>
    if e = '"' then parseJString rest ('"' :: acc)
    else if e = '\\' then parseJString rest ('\\' :: acc)
    else if e = '/' then parseJString rest ('/' :: acc)
    else if e = 'b' then parseJString rest (Char.ofNat 8 :: acc)
    else if e = 'f' then parseJString rest (Char.ofNat 12 :: acc)
    else if e = 'n' then parseJString rest ('\n' :: acc)
    else if e = 'r' then parseJString rest ('\r' :: acc)
    else if e = 't' then parseJString rest ('\t' :: acc)
    else if e = 'u' then
      match rest with
      | h1 :: h2 :: h3 :: h4 :: rest' =>
        if isHexDig h1 ∧ isHexDig h2 ∧ isHexDig h3 ∧ isHexDig h4 then
          parseJString rest'
            (Char.ofNat (((hexVal h1 * 16 + hexVal h2) * 16 + hexVal h3) * 16 + hexVal h4) :: acc)
        else none
      | _ => none
    else none
  | [ '\\' ], _ => none
  | c :: rest, acc => parseJString rest (c :: acc)

/-- Intermediate result of the recursive-descent parser. -/
inductive JPart where
  | v (x : Json)
  | elems (xs : List Json)
  | fields (xs : List (PyStr × Json))

/-- Parse a JSON numeric literal beginning at `s` (which starts with `-`
or a digit): an integer yields `Json.int`; a fraction or exponent yields
an uninterpreted `Json.numLit` lexeme. -/
def parseJNumber (s : PyStr) : Option (JPart × PyStr) :=
  let core : PyStr → Bool → Option (JPart × PyStr) := fun s1 neg =>
    match s1 with
    | [] => none
    | c :: _ =>
      if ¬ c.isDigit then none
      else
        let intPart := s1.takeWhile Char.isDigit
        let rest1 := s1.dropWhile Char.isDigit
        if 1 < intPart.length ∧ intPart.headD '1' = '0' then none
        else
          match rest1 with
          | '.' :: r2 =>
            let frac := r2.takeWhile Char.isDigit
            let r3 := r2.dropWhile Char.isDigit
            if frac = [] then none
            else
              match r3 with
              | 'e' :: r4 => (parseJExp r4).map (fun rest =>
                  (JPart.v (Json.numLit (s.take (s.length - rest.length))), rest))
              | 'E' :: r4 => (parseJExp r4).map (fun rest =>
                  (JPart.v (Json.numLit (s.take (s.length - rest.length))), rest))
              | _ => some (JPart.v (Json.numLit (s.take (s.length - r3.length))), r3)
          | 'e' :: r4 => (parseJExp r4).map (fun rest =>
              (JPart.v (Json.numLit (s.take (s.length - rest.length))), rest))
          | 'E' :: r4 => (parseJExp r4).map (fun rest =>
              (JPart.v (Json.numLit (s.take (s.length - rest.length))), rest))
          | _ =>
            let v : Int := digitsVal intPart
            some (JPart.v (Json.int (if neg then -v else v)), rest1)
  match s with
  | '-' :: r => core r true
  | _ => core s false
where
  /-- Consume an exponent part: optional sign then at least one digit. -/
  parseJExp (r : PyStr) : Option PyStr :=
    let r1 := match r with
      | '+' :: r' => r'
      | '-' :: r' => r'
      | _ => r
    match r1 with
    | [] => none
    | c :: _ => if c.isDigit then some (r1.dropWhile Char.isDigit) else none

/-- Fuel-driven recursive-descent JSON parser.  `mode 0` parses one value,
`mode 1` a comma-separated element list up to `]`, `mode 2` a
comma-separated member list up to the closing brace.  Fuel strictly
exceeding twice the input length covers every parse (each pair of nested
calls consumes at least one character). -/
def parseJ : Nat → Nat → PyStr → Option (JPart × PyStr)
  | 0, _, _ => none
  | fuel + 1, mode, s =>
    if mode = 0 then
      match skipWs s with
      | [] => none
      | c :: rest =>
        if c = '\x7b' then
          match skipWs rest with
          | '\x7d' :: r2 => some (.v (.obj []), r2)
          | _ =>
            match parseJ fuel 2 rest with
            | some (.fields fs, r2) => some (.v (.obj fs), r2)
            | _ => none
        else if c = '[' then
          match skipWs rest with
          | ']' :: r2 => some (.v (.arr []), r2)
          | _ =>
            match parseJ fuel 1 rest with
            | some (.elems xs, r2) => some (.v (.arr xs), r2)
            | _ => none
        else if c = '"' then
          match parseJString rest [] with
          | some sr => some (.v (.str sr.1), sr.2)
          | none => none
        else if c = 't' then
          if (pys "rue").isPrefixOf rest then some (.v (.bool true), rest.drop 3)
          else none
        else if c = 'f' then
          if (pys "alse").isPrefixOf rest then some (.v (.bool false), rest.drop 4)
          else none
        else if c = 'n' then
          if (pys "ull").isPrefixOf rest then some (.v .null, rest.drop 3)
          else none
        else if c = '-' ∨ c.isDigit then parseJNumber (c :: rest)
        else none
    else if mode = 1 then
      match parseJ fuel 0 s with
      | some (.v x, r1) =>
        (match skipWs r1 with
         | ',' :: r2 =>
           (match parseJ fuel 1 r2 with
            | some (.elems xs, r3) => some (.elems (x :: xs), r3)
            | _ => none)
         | ']' :: r2 => some (.elems [x], r2)
         | _ => none)
      | _ => none
    else
      match skipWs s with
      | '"' :: r1 =>
        (match parseJString r1 [] with
         | some kr =>
           (match skipWs kr.2 with
            | ':' :: r3 =>
              (match parseJ fuel 0 r3 with
               | some (.v x, r4) =>
                 (match skipWs r4 with
                  | ',' :: r5 =>
                    (match parseJ fuel 2 r5 with
                     | some (.fields fs, r6) => some (.fields ((kr.1, x) :: fs), r6)
                     | _ => none)
                  | '\x7d' :: r5 => some (.fields [(kr.1, x)], r5)
                  | _ => none)
               | _ => none)
            | _ => none)
         | none => none)
      | _ => none

/-- `json.loads(s)`: parse one value and require only whitespace after it;
`none` models `json.JSONDecodeError`. -/
def json_loads (s : PyStr) : Option Json :=
  match parseJ (2 * s.length + 2) 0 s with
  | some (.v x, rest) => if skipWs rest = [] then some x else none
  | _ => none

/-- Python `dict` lookup for an object built by `json.loads`: on duplicate
keys the last occurrence wins. -/
def jsonObjGet (fields : List (PyStr × Json)) (key : PyStr) : Option Json :=
  fields.reverse.lookup key

/-! ## Fix-content extraction (src/pr_reviewer/fix_generator.py lines 173-201) -/

/-- Python `sub in s` substring containment. -/
def pyIn (sub : PyStr) : PyStr → Bool
  | [] => sub.isPrefixOf []
  | c :: rest => sub.isPrefixOf (c :: rest) || pyIn sub rest

/-- Does the line start a fenced code block marker? -/
def startsFence (l : PyStr) : Bool := (pys "```").isPrefixOf l

/-- The fenced-code-block scan of `_extract_fixed_content` (lines
187-197): skip to the first fence line, collect lines until the next
fence line or the end of input. -/
def fenceLoop : List PyStr → Bool → List PyStr
  | [], _ => []
  | l :: rest, in_block =>
    if startsFence l ∧ in_block = false then fenceLoop rest true
    else if startsFence l ∧ in_block = true then []
    else if in_block then l :: fenceLoop rest in_block
    else fenceLoop rest in_block

/-- The JSON stage shared by `_extract_fixed_content` and its spec
renderings: `some r` means the stage decides the call's result `r`;
`none` means fall through to the fenced-code-block stage.  The source
returns `data["fixed_content"]` unchecked; a JSON `null` there maps to
`none` exactly as in Python, while other non-string field values (which
the pipeline never produces and which would be returned untyped) are also
modelled as an extraction failure. -/
def jsonStage (text : PyStr) : Option (Option PyStr) :=
  match json_loads text with
  | some (Json.obj fields) =>
    match jsonObjGet fields (pys "fixed_content") with
    | some (Json.str v) => some (some v)
    | some _ => some none
    | none => none
  | some _ => none
  | none => none

/-- `_extract_fixed_content(response_text)`. -/
def _extract_fixed_content (response_text : PyStr) : Option PyStr :=
  let text := pyStrip response_text
  match jsonStage text with
  | some r => r
  | none =>
    if pyIn (pys "```") text then
      let content_lines := fenceLoop (pySplit (pys "\n") text) false
      if content_lines ≠ [] then
        some (List.intercalate [ '\n' ] content_lines ++ [ '\n' ])
      else none
    else none

/-- Modelled from the spec (claim wording): after the JSON stage, when the
response contains fence markers, return the lines strictly between the
FIRST and the LAST fence-marker lines, joined by newlines; otherwise no
result. -/
def claimExtract (response_text : PyStr) : Option PyStr :=
  let text := pyStrip response_text
  match jsonStage text with
  | some r => r
  | none =>
    if pyIn (pys "```") text then
      let lines := pySplit (pys "\n") text
      let idxs := (List.range lines.length).filter
        (fun i => startsFence (lines.getD i []))
      if idxs = [] then none
      else
        let i := idxs.headD 0
        let j := idxs.getLastD 0
        let between := (lines.take j).drop (i + 1)
        if between ≠ [] then some (List.intercalate [ '\n' ] between)
        else none
    else none

/-- Modelled from the spec as amended: after the JSON stage, the result is
the block of lines after the first fence-marker line, up to but not
including the next fence-marker line (or the end of the response when no
fence follows), joined by newlines with one trailing newline appended;
no result when that block is empty. -/
def amendedFenceContent (lines : List PyStr) : List PyStr :=
  ((lines.dropWhile (fun l => ¬ startsFence l)).drop 1).takeWhile
    (fun l => ¬ startsFence l)

/-- Modelled from the spec as amended: full amended extraction. -/
def amendedExtract (response_text : PyStr) : Option PyStr :=
  let text := pyStrip response_text
  match jsonStage text with
  | some r => r
  | none =>
    if pyIn (pys "```") text then
      let block := amendedFenceContent (pySplit (pys "\n") text)
      if block ≠ [] then some (List.intercalate [ '\n' ] block ++ [ '\n' ])
      else none
    else none

/-! ## Finding parsing (src/pr_reviewer/reviewer.py lines 107-139) -/

/-- Pydantic validation of one finding object (`ReviewFinding(**item)`);
`none` models the per-item exception swallowed at lines 129-133.  Keys
are looked up with last-duplicate-wins dictionary semantics; extra keys
are ignored (pydantic's default); the lax coercions the pipeline never
exercises (numeric strings to `int`) are not modelled. -/
def validateFinding (item : Json) : Option ReviewFinding :=
  match item with
  | Json.obj fields => do
    let fileV ← jsonObjGet fields (pys "file")
    let file ← match fileV with | Json.str s => some s | _ => none
    let line ← match jsonObjGet fields (pys "line") with
      | none => some Option.none
      | some Json.null => some Option.none
      | some (Json.int n) => some (some n)
      | some _ => none
    let sevV ← jsonObjGet fields (pys "severity")
    let severity ← match sevV with
      | Json.str s =>
        if s = pys "critical" then some Severity.critical
        else if s = pys "high" then some Severity.high
        else if s = pys "medium" then some Severity.medium
        else if s = pys "low" then some Severity.low
        else none
      | _ => none
    let catV ← jsonObjGet fields (pys "category")
    let category ← match catV with
      | Json.str s =>
        if s = pys "security" then some Category.security
        else if s = pys "performance" then some Category.performance
        else if s = pys "maintainability" then some Category.maintainability
        else if s = pys "correctness" then some Category.correctness
        else if s = pys "style" then some Category.style
        else none
      | _ => none
    let titleV ← jsonObjGet fields (pys "title")
    let title ← match titleV with | Json.str s => some s | _ => none
    let descV ← jsonObjGet fields (pys "description")
    let description ← match descV with | Json.str s => some s | _ => none
    let suggested_fix ← match jsonObjGet fields (pys "suggested_fix") with
      | none => some Option.none
      | some Json.null => some Option.none
      | some (Json.str s) => some (some s)
      | some _ => none
    pure ⟨file, line, severity, category, title, description, suggested_fix⟩
  | _ => none

/-- The per-item loop of `_parse_findings` (lines 127-135): validating
items are appended in order, failing items are skipped. -/
def parseFindingItems : List Json → List ReviewFinding
  | [] => []
  | item :: rest =>
    match validateFinding item with
    | some f => f :: parseFindingItems rest
    | none => parseFindingItems rest

/-- The shape dispatch of `_parse_findings` (lines 119-135) on parsed JSON
data: an object is asked for its `findings` entry (default `[]`), a list
is used directly, anything else yields no findings.  `none` models the
uncaught `TypeError` when `data["findings"]` is not iterable (a string
iterates to characters, each failing validation; a dictionary iterates to
its string keys, likewise all failing). -/
def parse_findings (data : Json) : Option (List ReviewFinding) :=
  match data with
  | Json.obj fields =>
    (match jsonObjGet fields (pys "findings") with
     | none => some (parseFindingItems [])
     | some (Json.arr items) => some (parseFindingItems items)
     | some (Json.str _) => some []
     | some (Json.obj _) => some []
     | some _ => none)
  | Json.arr items => some (parseFindingItems items)
  | _ => some []

/-! ## Fix Synthesizer (src/pr_reviewer/fix_generator.py)

The GitHub client and Anthropic client are external collaborators,
abstracted as a deterministic environment of call results; `Except`
results model raised exceptions.  The fix-generation prompt template is a
packaged resource not present under src/, so the model call is abstracted
over its three format arguments (filename, current content, findings
digest) rather than over rendered template text.  Every mutating call
issued to the hosting collaborator is recorded in an ordered trace. -/

/-- A mutating call on the hosting collaborator. -/
inductive GhCall where
  | createBranch (name from_sha : PyStr)
  | commitFile (path content message branch : PyStr) (sha : Option PyStr)
  | createPullRequest (title body head base : PyStr) (labels : List PyStr)
deriving DecidableEq

/-- Collaborator environment of `generate_fix_pr`. -/
structure FixEnv where
  create_branch : PyStr → PyStr → Except PyStr Unit
  get_file_content : PyStr → PyStr → Option PyStr
  get_file_sha : PyStr → PyStr → Option PyStr
  fix_response : PyStr → PyStr → PyStr → Except PyStr PyStr
  commit_file : PyStr → PyStr → PyStr → PyStr → Option PyStr → Except PyStr Unit
  create_pull_request : PyStr → PyStr → PyStr → PyStr → List PyStr → Except PyStr PyStr

/-- Python truthiness of an optional string (`if f.suggested_fix`). -/
def pyTruthyStr : Option PyStr → Bool
  | none => false
  | some s => s ≠ []

/-- Append a finding to its file's bucket, preserving first-seen key
order (`defaultdict(list)` insertion semantics). -/
def addToGroup (groups : List (PyStr × List ReviewFinding)) (f : ReviewFinding) :
    List (PyStr × List ReviewFinding) :=
  match groups with
  | [] => [(f.file, [f])]
  | (k, fs) :: rest =>
    if k = f.file then (k, fs ++ [f]) :: rest
    else (k, fs) :: addToGroup rest f

/-- Group fixable findings by file path (lines 48-50). -/
def groupByFile (fixable : List ReviewFinding) : List (PyStr × List ReviewFinding) :=
  fixable.foldl addToGroup []

/-- Python `f"{opt}"` for an optional string (`None` renders as such). -/
def pyStrOfOpt : Option PyStr → PyStr
  | none => pys "None"
  | some s => s

/-- One line of the findings digest (lines 135-138). -/
def findingDescLine (f : ReviewFinding) : PyStr :=
  pys "- [" ++ f.severity.value ++ pys "] " ++ f.title ++ pys ": " ++
    f.description ++ pys "\n  Suggested: " ++ pyStrOfOpt f.suggested_fix

/-- The findings digest for one file. -/
def buildFindingsDesc (ffs : List ReviewFinding) : PyStr :=
  List.intercalate [ '\n' ] (ffs.map findingDescLine)

/-- `_build_fix_pr_body` (lines 204-228). -/
def _build_fix_pr_body (pr : PRInfo)
    (fixes : List (PyStr × List ReviewFinding)) : PyStr :=
  List.intercalate [ '\n' ]
    ([pys "## AI-Generated Fix PR", pys "",
      pys "This PR addresses review findings from PR #" ++ natChars pr.number ++ pys ".",
      pys "", pys "### Files Modified", pys ""] ++
     (fixes.map (fun fx =>
        (pys "#### `" ++ fx.1 ++ pys "`") ::
          fx.2.map (fun f => pys "- **[" ++ f.severity.value ++ pys "]** " ++ f.title) ++
          [pys ""])).flatten ++
     [pys "---", pys "*This PR was automatically generated by AI PR Reviewer.*"])

/-- `_fix_and_commit_file` (lines 108-170): returns whether a commit
succeeded together with the trace of mutating calls it issued. -/
def fixAndCommitFile (env : FixEnv) (filename : PyStr)
    (file_findings : List ReviewFinding) (fix_branch : PyStr) :
    Bool × List GhCall :=
  match env.get_file_content filename fix_branch with
  | none => (false, [])
  | some current_content =>
    match env.get_file_sha filename fix_branch with
    | none => (false, [])
    | some file_sha =>
      let findings_desc := buildFindingsDesc file_findings
      match env.fix_response filename current_content findings_desc with
      | .error _ => (false, [])
      | .ok text =>
        match _extract_fixed_content text with
        | none => (false, [])
        | some fixed_content =>
          let commit_msg := pys "fix: address AI review findings in " ++ filename ++
            pys "\n\nFindings addressed:\n" ++ findings_desc
          let call := GhCall.commitFile filename fixed_content commit_msg
            fix_branch (some file_sha)
          match env.commit_file filename fixed_content commit_msg fix_branch (some file_sha) with
          | .error _ => (false, [call])
          | .ok _ => (true, [call])

/-- The per-file loop of `generate_fix_pr` (lines 68-84); per-file
exceptions are already absorbed inside `fixAndCommitFile`. -/
def fixFilesLoop (env : FixEnv) (fix_branch : PyStr) :
    List (PyStr × List ReviewFinding) → Bool → List GhCall → Bool × List GhCall
  | [], committed_any, trace => (committed_any, trace)
  | (filename, ffs) :: rest, committed_any, trace =>
    let r := fixAndCommitFile env filename ffs fix_branch
    fixFilesLoop env fix_branch rest (committed_any || r.1) (trace ++ r.2)

/-- `generate_fix_pr(findings, pr_info, gh, config, api_key)`: the result
URL (if a fix change request was opened) and the ordered trace of
mutating hosting calls. -/
def generate_fix_pr (env : FixEnv) (findings : List ReviewFinding)
    (pr_info : PRInfo) (cfg : ReviewConfig) : Option PyStr × List GhCall :=
  let fixable := findings.filter (fun f => pyTruthyStr f.suggested_fix)
  if fixable = [] then (none, [])
  else
    let by_file := groupByFile fixable
    let files_to_fix := by_file.take cfg.fix_max_files_per_pr
    let fix_branch := cfg.fix_branch_prefix ++ natChars pr_info.number
    match env.create_branch fix_branch pr_info.head_sha with
    | .error _ => (none, [GhCall.createBranch fix_branch pr_info.head_sha])
    | .ok _ =>
      let trace0 := [GhCall.createBranch fix_branch pr_info.head_sha]
      let lr := fixFilesLoop env fix_branch files_to_fix false []
      if lr.1 = false then (none, trace0 ++ lr.2)
      else
        let pr_title := pys "AI Fix: Address review findings for PR #" ++
          natChars pr_info.number
        let pr_body := _build_fix_pr_body pr_info files_to_fix
        let labels := [cfg.labels_fix, cfg.labels_automated]
        let prCall := GhCall.createPullRequest pr_title pr_body fix_branch
          pr_info.head_branch labels
        match env.create_pull_request pr_title pr_body fix_branch
            pr_info.head_branch labels with
        | .error _ => (none, trace0 ++ lr.2 ++ [prCall])
        | .ok url => (some url, trace0 ++ lr.2 ++ [prCall])

/-! ## Toolkit lemmas about the Python-string model -/

theorem dropWhile_eq_self_of_all {p : Char → Bool} {l : PyStr}
    (h : ∀ x ∈ l, p x = false) : l.dropWhile p = l := by
  cases l with
  | nil => rfl
  | cons c cs =>
    exact List.dropWhile_cons_of_neg (by simp [h c (by simp)])

theorem pyStrip_of_all_nonws {s : PyStr}
    (h : ∀ c ∈ s, c.isWhitespace = false) : pyStrip s = s := by
  unfold pyStrip
  rw [dropWhile_eq_self_of_all h,
    dropWhile_eq_self_of_all (fun c hc => h c (List.mem_reverse.mp hc)),
    List.reverse_reverse]

theorem pySplit_eq_core {sep : PyStr} (hsep : sep ≠ []) (s : PyStr) :
    pySplit sep s = pySplitCore sep (s.length + 1) s := by
  unfold pySplit
  rw [if_neg hsep]

theorem pyStrip_append_space {s : PyStr} (hne : s ≠ [])
    (h : ∀ c ∈ s, c.isWhitespace = false) : pyStrip (s ++ [ ' ' ]) = s := by
  unfold pyStrip
  have h1 : (s ++ [ ' ' ]).dropWhile Char.isWhitespace = s ++ [ ' ' ] := by
    obtain ⟨c, cs, rfl⟩ := List.exists_cons_of_ne_nil hne
    rw [List.cons_append, List.dropWhile_cons_of_neg (by simp [h c (by simp)])]
  have h2 : (s ++ [ ' ' ]).reverse = ' ' :: s.reverse := by simp
  rw [h1, h2, List.dropWhile_cons_of_pos (by decide),
    dropWhile_eq_self_of_all (fun x hx => h x (List.mem_reverse.mp hx)),
    List.reverse_reverse]

theorem pySplitCore_congr {sep : PyStr} (hsep : sep ≠ []) :
    ∀ fuel₁ fuel₂ s, s.length < fuel₁ → s.length < fuel₂ →
      pySplitCore sep fuel₁ s = pySplitCore sep fuel₂ s := by
  intro fuel₁
  induction fuel₁ with
  | zero => intro fuel₂ s h1; omega
  | succ f ih =>
    intro fuel₂ s h1 h2
    cases fuel₂ with
    | zero => omega
    | succ g =>
      cases s with
      | nil => rfl
      | cons c rest =>
        simp only [pySplitCore]
        cases hpre : sep.isPrefixOf (c :: rest) with
        | true =>
          simp only [if_true]
          have hlen : ((c :: rest).drop sep.length).length < f := by
            have : 1 ≤ sep.length := List.length_pos.mpr hsep
            simp only [List.length_drop, List.length_cons] at *
            omega
          have hlen2 : ((c :: rest).drop sep.length).length < g := by
            have : 1 ≤ sep.length := List.length_pos.mpr hsep
            simp only [List.length_drop, List.length_cons] at *
            omega
          rw [ih _ _ hlen hlen2]
        | false =>
          simp only [Bool.false_eq_true, if_false]
          have hl1 : rest.length < f := by simp at h1; omega
          have hl2 : rest.length < g := by simp at h2; omega
          rw [ih _ _ hl1 hl2]

theorem pySplitCore_no_sep {sep : PyStr} (hsep : sep ≠ []) :
    ∀ fuel s, s.length < fuel → (∀ c ∈ s, c ∉ sep) →
      pySplitCore sep fuel s = [s] := by
  intro fuel
  induction fuel with
  | zero => intro s h; omega
  | succ f ih =>
    intro s hlen hmem
    cases s with
    | nil => rfl
    | cons c rest =>
      simp only [pySplitCore]
      have hpre : sep.isPrefixOf (c :: rest) = false := by
        obtain ⟨d, ds, rfl⟩ := List.exists_cons_of_ne_nil hsep
        by_contra hcon
        rw [Bool.not_eq_false, List.isPrefixOf_iff_prefix, List.cons_prefix_cons] at hcon
        exact hmem c (by simp) (hcon.1 ▸ by simp)
      rw [hpre]
      simp only [Bool.false_eq_true, if_false]
      rw [ih rest (by simp at hlen; omega) (fun x hx => hmem x (by simp [hx]))]

theorem pySplit_no_sep {sep s : PyStr} (hsep : sep ≠ [])
    (hmem : ∀ c ∈ s, c ∉ sep) : pySplit sep s = [s] := by
  unfold pySplit
  rw [if_neg hsep]
  exact pySplitCore_no_sep hsep _ s (by omega) hmem

theorem pySplit_append {sep : PyStr} (hsep : sep ≠ []) :
    ∀ xs ys, (∀ c ∈ xs, c ∉ sep) →
      pySplit sep (xs ++ sep ++ ys) = xs :: pySplit sep ys := by
  have core : ∀ xs ys fuel, (xs ++ sep ++ ys).length < fuel → (∀ c ∈ xs, c ∉ sep) →
      pySplitCore sep fuel (xs ++ sep ++ ys) = xs :: pySplit sep ys := by
    intro xs
    induction xs with
    | nil =>
      intro ys fuel hlen _
      cases fuel with
      | zero => omega
      | succ f =>
        obtain ⟨d, ds, hd⟩ := List.exists_cons_of_ne_nil hsep
        simp only [List.nil_append]
        have hform : sep ++ ys = d :: (ds ++ ys) := by rw [hd]; simp
        rw [hform]
        simp only [pySplitCore]
        have hpre : sep.isPrefixOf (d :: (ds ++ ys)) = true := by
          rw [List.isPrefixOf_iff_prefix, ← hform]
          exact List.prefix_append sep ys
        rw [hpre]
        simp only [if_true]
        rw [← hform, List.drop_left]
        have hys : ys.length < f := by
          rw [hd] at hlen; simp at hlen; omega
        rw [pySplitCore_congr hsep f (ys.length + 1) ys hys (by omega)]
        rw [pySplit_eq_core hsep]
    | cons x xs' ih =>
      intro ys fuel hlen hmem
      cases fuel with
      | zero => omega
      | succ f =>
        simp only [List.cons_append]
        simp only [pySplitCore]
        have hpre : sep.isPrefixOf (x :: (xs' ++ sep ++ ys)) = false := by
          obtain ⟨d, ds, rfl⟩ := List.exists_cons_of_ne_nil hsep
          by_contra hcon
          rw [Bool.not_eq_false, List.isPrefixOf_iff_prefix, List.cons_prefix_cons] at hcon
          exact hmem x (by simp) (hcon.1 ▸ by simp)
        rw [hpre]
        simp only [Bool.false_eq_true, if_false]
        rw [ih ys f (by simp at hlen ⊢; omega) (fun c hc => hmem c (by simp [hc]))]
  intro xs ys hmem
  unfold pySplit
  rw [if_neg hsep]
  exact core xs ys _ (by omega) hmem

theorem digitChar_isDigit (n : Nat) : (digitChar n).isDigit = true := by
  unfold digitChar
  split <;> decide

theorem digitChar_toNat {n : Nat} (h : n < 10) : (digitChar n).toNat = 48 + n := by
  interval_cases n <;> decide

theorem natCharsCore_all_digit :
    ∀ fuel n c, c ∈ natCharsCore fuel n → c.isDigit = true := by
  intro fuel
  induction fuel with
  | zero => intro n c hc; simp [natCharsCore] at hc
  | succ f ih =>
    intro n c hc
    simp only [natCharsCore] at hc
    split at hc
    · simp at hc; exact hc ▸ digitChar_isDigit n
    · rcases List.mem_append.mp hc with h | h
      · exact ih _ _ h
      · simp at h; exact h ▸ digitChar_isDigit (n % 10)

theorem natChars_all_digit {n : Nat} {c : Char} (hc : c ∈ natChars n) :
    c.isDigit = true := natCharsCore_all_digit _ _ _ hc

theorem natCharsCore_ne_nil : ∀ fuel n, fuel ≠ 0 → natCharsCore fuel n ≠ [] := by
  intro fuel n h
  cases fuel with
  | zero => exact absurd rfl h
  | succ f =>
    simp only [natCharsCore]
    split
    · simp
    · simp

theorem natChars_ne_nil (n : Nat) : natChars n ≠ [] :=
  natCharsCore_ne_nil (n + 1) n (by omega)

theorem digitsVal_append_singleton (l : PyStr) (c : Char) :
    digitsVal (l ++ [c]) = digitsVal l * 10 + (c.toNat - 48) := by
  simp [digitsVal, List.foldl_append]

theorem digitsVal_natCharsCore :
    ∀ fuel n, n < fuel → digitsVal (natCharsCore fuel n) = n := by
  intro fuel
  induction fuel with
  | zero => intro n h; omega
  | succ f ih =>
    intro n h
    simp only [natCharsCore]
    split
    · rename_i h10
      have hone : digitsVal [digitChar n] = (digitChar n).toNat - 48 := by
        simp [digitsVal]
      rw [hone, digitChar_toNat h10]
      omega
    · rename_i h10
      push_neg at h10
      have hdl : n / 10 < n := Nat.div_lt_self (by omega) (by omega)
      rw [digitsVal_append_singleton]
      rw [ih (n / 10) (by omega)]
      rw [digitChar_toNat (by omega)]
      have := Nat.div_add_mod n 10
      omega

theorem digitsVal_natChars (n : Nat) : digitsVal (natChars n) = n :=
  digitsVal_natCharsCore (n + 1) n (by omega)

theorem digit_not_ws {c : Char} (h : c.isDigit = true) : c.isWhitespace = false := by
  by_contra hw
  rw [Bool.not_eq_false] at hw
  have hcases : c = ' ' ∨ c = '\t' ∨ c = '\r' ∨ c = '\n' := by
    simpa [Char.isWhitespace, or_assoc] using hw
  rcases hcases with rfl | rfl | rfl | rfl <;> exact absurd h (by decide)

theorem digit_ne_special {c : Char} (h : c.isDigit = true) :
    c ≠ '+' ∧ c ≠ '@' ∧ c ≠ ',' ∧ c ≠ '\n' ∧ c ≠ '-' ∧ c ≠ ' ' := by
  refine ⟨?_, ?_, ?_, ?_, ?_, ?_⟩ <;> rintro rfl <;> revert h <;> decide

theorem pyNatDigits?_natChars (n : Nat) : pyNatDigits? (natChars n) = some n := by
  unfold pyNatDigits?
  rw [if_pos ⟨natChars_ne_nil n, List.all_eq_true.mpr (fun c hc => natChars_all_digit hc)⟩]
  rw [digitsVal_natChars]

theorem pyInt?_natChars (n : Nat) : pyInt? (natChars n) = some (n : Int) := by
  unfold pyInt?
  rw [pyStrip_of_all_nonws (fun c hc => digit_not_ws (natChars_all_digit hc))]
  obtain ⟨c, cs, hc⟩ := List.exists_cons_of_ne_nil (natChars_ne_nil n)
  rw [hc]
  have hcd : c.isDigit = true := natChars_all_digit (hc ▸ List.mem_cons_self c cs)
  have hne := digit_ne_special hcd
  simp only [pyIntCore]
  rw [if_neg hne.2.2.2.2.1, if_neg hne.1, ← hc, pyNatDigits?_natChars]
  rfl

/-! ## The counter algorithm refines the string scan (§4.1) -/

theorem contains_of_mem {l : PyStr} {c : Char} (h : c ∈ l) : l.contains c = true := by
  simpa [List.contains] using List.elem_eq_true_of_mem h

theorem hunk_head_chars {a b : Nat} {ch : Char}
    (h : ch ∈ [ '@', '@', ' ', '-' ] ++ natChars a ++ [ ',' ] ++ natChars b ++ [ ' ' ]) :
    ch ∉ (pys "+") := by
  have hch : ch = '@' ∨ ch = ' ' ∨ ch = '-' ∨ ch = ',' ∨ ch.isDigit = true := by
    simp only [List.append_assoc, List.mem_append, List.mem_cons,
      List.mem_singleton, List.not_mem_nil, or_false] at h
    rcases h with (rfl | rfl | rfl | rfl) | h | h | h | h
    · exact Or.inl rfl
    · exact Or.inl rfl
    · exact Or.inr (Or.inl rfl)
    · exact Or.inr (Or.inr (Or.inl rfl))
    · exact Or.inr (Or.inr (Or.inr (Or.inr (natChars_all_digit h))))
    · exact Or.inr (Or.inr (Or.inr (Or.inl h)))
    · exact Or.inr (Or.inr (Or.inr (Or.inr (natChars_all_digit h))))
    · exact Or.inr (Or.inl h)
  intro hmem
  have : ch = '+' := by simpa [pys] using hmem
  subst this
  rcases hch with h' | h' | h' | h' | h' <;> revert h' <;> decide

theorem hunk_tail_chars {c d : Nat} {ch : Char}
    (h : ch ∈ natChars c ++ [ ',' ] ++ natChars d ++ [ ' ', '@', '@' ]) :
    ch = '@' ∨ ch = ' ' ∨ ch = ',' ∨ ch.isDigit = true := by
  simp only [List.append_assoc, List.mem_append, List.mem_cons,
    List.mem_singleton, List.not_mem_nil, or_false] at h
  rcases h with h | h | h | (rfl | rfl | rfl)
  · exact Or.inr (Or.inr (Or.inr (natChars_all_digit h)))
  · exact Or.inr (Or.inr (Or.inl h))
  · exact Or.inr (Or.inr (Or.inr (natChars_all_digit h)))
  · exact Or.inr (Or.inl rfl)
  · exact Or.inl rfl
  · exact Or.inl rfl

theorem hunk_mid_chars {c d : Nat} {ch : Char}
    (h : ch ∈ natChars c ++ [ ',' ] ++ natChars d ++ [ ' ' ]) :
    ch = ',' ∨ ch = ' ' ∨ ch.isDigit = true := by
  simp only [List.append_assoc, List.mem_append, List.mem_cons,
    List.mem_singleton, List.not_mem_nil, or_false] at h
  rcases h with h | h | h | rfl
  · exact Or.inr (Or.inr (natChars_all_digit h))
  · exact Or.inl h
  · exact Or.inr (Or.inr (natChars_all_digit h))
  · exact Or.inr (Or.inl rfl)

theorem hunk_mid_ne_nil {c d : Nat} :
    natChars c ++ [ ',' ] ++ natChars d ≠ [] := by
  simp

theorem hunk_mid_nonws {c d : Nat} {ch : Char}
    (h : ch ∈ natChars c ++ [ ',' ] ++ natChars d) : ch.isWhitespace = false := by
  simp only [List.append_assoc, List.mem_append, List.mem_cons,
    List.mem_singleton, List.not_mem_nil, or_false] at h
  rcases h with h | h | h
  · exact digit_not_ws (natChars_all_digit h)
  · subst h; decide
  · exact digit_not_ws (natChars_all_digit h)

theorem processPatchLine_hunk (st : Int × List (Int × Int)) (a b c d : Nat) :
    processPatchLine st (renderLine (DiffLine.hunk a b c d)) =
      some (specStep st (DiffLine.hunk a b c d)) := by
  have hline : renderLine (DiffLine.hunk a b c d) =
      ([ '@', '@', ' ', '-' ] ++ natChars a ++ [ ',' ] ++ natChars b ++ [ ' ' ]) ++
        pys "+" ++ (natChars c ++ [ ',' ] ++ natChars d ++ [ ' ', '@', '@' ]) := by
    show pys "@@ -" ++ natChars a ++ [ ',' ] ++ natChars b ++ pys " +" ++
        natChars c ++ [ ',' ] ++ natChars d ++ pys " @@" = _
    have e1 : pys "@@ -" = [ '@', '@', ' ', '-' ] := rfl
    have e2 : pys " +" = [ ' ' ] ++ pys "+" := rfl
    have e3 : pys " @@" = [ ' ', '@', '@' ] := rfl
    rw [e1, e2, e3]
    simp only [List.append_assoc, List.cons_append, List.nil_append]
  have hpre : (pys "@@").isPrefixOf (renderLine (DiffLine.hunk a b c d)) = true := by
    rw [hline]
    simp [pys, List.isPrefixOf]
  have hsplit : pySplit (pys "+") (renderLine (DiffLine.hunk a b c d)) =
      ([ '@', '@', ' ', '-' ] ++ natChars a ++ [ ',' ] ++ natChars b ++ [ ' ' ]) ::
        [natChars c ++ [ ',' ] ++ natChars d ++ [ ' ', '@', '@' ]] := by
    rw [hline, pySplit_append (by simp [pys]) _ _ (fun ch hch => hunk_head_chars hch)]
    rw [pySplit_no_sep (by simp [pys]) (fun ch hch hmem => by
      have hp : ch = '+' := by simpa [pys] using hmem
      subst hp
      rcases hunk_tail_chars hch with h' | h' | h' | h' <;> revert h' <;> decide)]
  have hsplit2 : pySplit (pys "@@")
      (natChars c ++ [ ',' ] ++ natChars d ++ [ ' ', '@', '@' ]) =
      (natChars c ++ [ ',' ] ++ natChars d ++ [ ' ' ]) :: [[]] := by
    have hshape : natChars c ++ [ ',' ] ++ natChars d ++ [ ' ', '@', '@' ] =
        (natChars c ++ [ ',' ] ++ natChars d ++ [ ' ' ]) ++ pys "@@" ++ [] := by
      have e : pys "@@" = [ '@', '@' ] := rfl
      rw [e]
      simp only [List.append_assoc, List.cons_append, List.nil_append, List.append_nil]
    rw [hshape, pySplit_append (by simp [pys]) _ _ (fun ch hch hmem => by
      have h2 : ch = '@' := by
        have : ch ∈ pys "@@" := hmem
        simpa [pys] using this
      subst h2
      rcases hunk_mid_chars hch with h' | h' | h' <;> revert h' <;> decide)]
    rfl
  have hstrip : pyStrip ((natChars c ++ [ ',' ] ++ natChars d) ++ [ ' ' ]) =
      natChars c ++ [ ',' ] ++ natChars d :=
    pyStrip_append_space hunk_mid_ne_nil (fun ch hch => hunk_mid_nonws hch)
  have hcont : (natChars c ++ [ ',' ] ++ natChars d).contains ',' = true :=
    contains_of_mem (by simp)
  have hsplit3 : pySplit (pys ",") (natChars c ++ [ ',' ] ++ natChars d) =
      natChars c :: pySplit (pys ",") (natChars d) :=
    pySplit_append (by simp [pys]) _ _ (fun ch hch hmem => by
      have h2 : ch = ',' := by simpa [pys] using hmem
      subst h2
      exact absurd (natChars_all_digit hch) (by decide))
  unfold processPatchLine
  rw [hsplit, hpre, if_pos rfl]
  rw [if_pos (by simp : (2 : Nat) ≤ _)]
  rw [show List.getD (([ '@', '@', ' ', '-' ] ++ natChars a ++ [ ',' ] ++
      natChars b ++ [ ' ' ]) ::
        [natChars c ++ [ ',' ] ++ natChars d ++ [ ' ', '@', '@' ]]) 1 [] =
      natChars c ++ [ ',' ] ++ natChars d ++ [ ' ', '@', '@' ] from rfl]
  rw [hsplit2]
  rw [show (((natChars c ++ [ ',' ] ++ natChars d ++ [ ' ' ]) :: [[]]).headD []) =
      (natChars c ++ [ ',' ] ++ natChars d) ++ [ ' ' ] from by
    simp [List.append_assoc]]
  rw [hstrip]
  simp only [hcont, eq_self_iff_true, if_true, hsplit3, List.headD_cons, pyInt?_natChars]
  rfl

theorem processPatchLine_add (st : Int × List (Int × Int)) (s : PyStr)
    (hw : wfLine (DiffLine.add s)) :
    processPatchLine st (renderLine (DiffLine.add s)) =
      some (specStep st (DiffLine.add s)) := by
  unfold processPatchLine
  have h1 : (pys "@@").isPrefixOf (renderLine (DiffLine.add s)) = false := by
    simp [renderLine, pys, List.isPrefixOf]
  have h2 : (pys "+").isPrefixOf (renderLine (DiffLine.add s)) = true := by
    simp [renderLine, pys, List.isPrefixOf]
  have h3 : (pys "+++").isPrefixOf (renderLine (DiffLine.add s)) = false := by
    have hw2 : (pys "++").isPrefixOf s = false := by
      rw [← Bool.not_eq_true]
      exact hw.2
    show List.isPrefixOf [ '+', '+', '+' ] ('+' :: s) = false
    simp only [List.isPrefixOf, beq_self_eq_true, Bool.true_and]
    exact hw2
  rw [h1, h2, h3]
  simp [specStep]

theorem processPatchLine_rem (st : Int × List (Int × Int)) (s : PyStr)
    (hw : wfLine (DiffLine.rem s)) :
    processPatchLine st (renderLine (DiffLine.rem s)) =
      some (specStep st (DiffLine.rem s)) := by
  unfold processPatchLine
  have h1 : (pys "@@").isPrefixOf (renderLine (DiffLine.rem s)) = false := by
    simp [renderLine, pys, List.isPrefixOf]
  have h2 : (pys "+").isPrefixOf (renderLine (DiffLine.rem s)) = false := by
    simp [renderLine, pys, List.isPrefixOf]
  have h3 : (pys "-").isPrefixOf (renderLine (DiffLine.rem s)) = true := by
    simp [renderLine, pys, List.isPrefixOf]
  have h4 : (pys "---").isPrefixOf (renderLine (DiffLine.rem s)) = false := by
    have hw2 : (pys "--").isPrefixOf s = false := by
      rw [← Bool.not_eq_true]
      exact hw.2
    show List.isPrefixOf [ '-', '-', '-' ] ('-' :: s) = false
    simp only [List.isPrefixOf, beq_self_eq_true, Bool.true_and]
    exact hw2
  rw [h1, h2, h3, h4]
  simp [specStep]

theorem processPatchLine_ctx (st : Int × List (Int × Int)) (s : PyStr) :
    processPatchLine st (renderLine (DiffLine.ctx s)) =
      some (specStep st (DiffLine.ctx s)) := by
  unfold processPatchLine
  have h1 : (pys "@@").isPrefixOf (renderLine (DiffLine.ctx s)) = false := by
    simp [renderLine, pys, List.isPrefixOf]
  have h2 : (pys "+").isPrefixOf (renderLine (DiffLine.ctx s)) = false := by
    simp [renderLine, pys, List.isPrefixOf]
  have h3 : (pys "-").isPrefixOf (renderLine (DiffLine.ctx s)) = false := by
    simp [renderLine, pys, List.isPrefixOf]
  rw [h1, h2, h3]
  simp [specStep]

theorem processPatchLine_wf (st : Int × List (Int × Int)) (l : DiffLine)
    (hw : wfLine l) :
    processPatchLine st (renderLine l) = some (specStep st l) := by
  cases l with
  | hunk a b c d => exact processPatchLine_hunk st a b c d
  | add s => exact processPatchLine_add st s hw
  | rem s => exact processPatchLine_rem st s hw
  | ctx s => exact processPatchLine_ctx st s

theorem renderLine_no_newline {l : DiffLine} (hw : wfLine l) :
    '\n' ∉ renderLine l := by
  cases l with
  | hunk a b c d =>
    intro hmem
    simp only [renderLine, List.append_assoc, List.mem_append] at hmem
    rcases hmem with h | h | h | h | h | h | h | h | h
    · exact absurd h (by decide)
    · exact absurd (natChars_all_digit h) (by decide)
    · exact absurd h (by decide)
    · exact absurd (natChars_all_digit h) (by decide)
    · exact absurd h (by decide)
    · exact absurd (natChars_all_digit h) (by decide)
    · exact absurd h (by decide)
    · exact absurd (natChars_all_digit h) (by decide)
    · exact absurd h (by decide)
  | add s =>
    intro hmem
    simp only [renderLine, List.mem_cons] at hmem
    rcases hmem with h | h
    · exact absurd h (by decide)
    · exact hw.1 h
  | rem s =>
    intro hmem
    simp only [renderLine, List.mem_cons] at hmem
    rcases hmem with h | h
    · exact absurd h (by decide)
    · exact hw.1 h
  | ctx s =>
    intro hmem
    simp only [renderLine, List.mem_cons] at hmem
    rcases hmem with h | h
    · exact absurd h (by decide)
    · exact hw h

theorem intercalate_cons₂ (x y : PyStr) (rest : List PyStr) :
    List.intercalate [ '\n' ] (x :: y :: rest) =
      x ++ [ '\n' ] ++ List.intercalate [ '\n' ] (y :: rest) := by
  simp [List.intercalate, List.intersperse]

theorem split_intercalate :
    ∀ parts : List PyStr, parts ≠ [] → (∀ p ∈ parts, '\n' ∉ p) →
      pySplit (pys "\n") (List.intercalate [ '\n' ] parts) = parts := by
  intro parts
  induction parts with
  | nil => intro h; exact absurd rfl h
  | cons x rest ih =>
    intro _ hmem
    cases rest with
    | nil =>
      rw [show List.intercalate [ '\n' ] [x] = x from by simp [List.intercalate]]
      exact pySplit_no_sep (by simp [pys]) (fun c hc hsep => by
        have : c = '\n' := by simpa [pys] using hsep
        exact hmem x (by simp) (this ▸ hc))
    | cons y rest' =>
      rw [intercalate_cons₂]
      rw [show (pys "\n") = [ '\n' ] from rfl] at *
      rw [pySplit_append (by simp) _ _ (fun c hc hsep => by
        have : c = '\n' := by simpa using hsep
        exact hmem x (by simp) (this ▸ hc))]
      rw [ih (by simp) (fun p hp => hmem p (by simp [hp]))]

theorem patchFoldM (lines : List DiffLine) :
    ∀ st, (∀ l ∈ lines, wfLine l) →
      (lines.map renderLine).foldlM processPatchLine st =
        some (lines.foldl specStep st) := by
  induction lines with
  | nil => intro st _; rfl
  | cons l rest ih =>
    intro st hwf
    rw [List.map_cons, List.foldlM_cons, processPatchLine_wf st l (hwf l (by simp))]
    rw [List.foldl_cons]
    exact ih (specStep st l) (fun x hx => hwf x (by simp [hx]))

theorem parse_render_eq_spec (lines : List DiffLine)
    (hwf : ∀ l ∈ lines, wfLine l) :
    parse_patch_line_numbers (renderPatch lines) =
      some (mergeRanges (specCollect lines)) := by
  cases lines with
  | nil => rfl
  | cons l rest =>
    unfold parse_patch_line_numbers renderPatch
    rw [split_intercalate _ (by simp) (fun p hp => by
      rcases List.mem_map.mp hp with ⟨dl, hdl, rfl⟩
      exact renderLine_no_newline (hwf dl hdl))]
    rw [patchFoldM _ _ hwf]
    rfl

/-! ## Invariants of `_merge_ranges` -/

theorem mem_insertRange {x z : Int × Int} :
    ∀ {ys : List (Int × Int)}, z ∈ insertRange x ys ↔ z = x ∨ z ∈ ys := by
  intro ys
  induction ys with
  | nil => simp [insertRange]
  | cons y ys ih =>
    simp only [insertRange]
    split
    · simp only [List.mem_cons, ih]
      tauto
    · simp [List.mem_cons]

theorem mem_sortRanges {z : Int × Int} :
    ∀ {rs : List (Int × Int)}, z ∈ sortRanges rs ↔ z ∈ rs := by
  intro rs
  induction rs with
  | nil => simp [sortRanges]
  | cons r rs ih => simp [sortRanges, mem_insertRange, ih]

theorem pairwise_insertRange {x : Int × Int} :
    ∀ {ys : List (Int × Int)},
      ys.Pairwise (fun a b => a.1 ≤ b.1) →
      (insertRange x ys).Pairwise (fun a b => a.1 ≤ b.1) := by
  intro ys
  induction ys with
  | nil => intro _; simp [insertRange]
  | cons y ys ih =>
    intro h
    rw [List.pairwise_cons] at h
    simp only [insertRange]
    split
    · rename_i hyx
      rw [List.pairwise_cons]
      constructor
      · intro z hz
        rcases mem_insertRange.mp hz with rfl | hz'
        · exact hyx
        · exact h.1 z hz'
      · exact ih h.2
    · rename_i hyx
      push_neg at hyx
      rw [List.pairwise_cons]
      constructor
      · intro z hz
        rcases List.mem_cons.mp hz with rfl | hz'
        · omega
        · exact le_trans (le_of_lt hyx) (h.1 z hz')
      · exact List.pairwise_cons.mpr h

theorem pairwise_sortRanges :
    ∀ (rs : List (Int × Int)),
      (sortRanges rs).Pairwise (fun a b => a.1 ≤ b.1) := by
  intro rs
  induction rs with
  | nil => simp [sortRanges]
  | cons r rs ih => exact pairwise_insertRange ih

theorem mergeLoop_invariant :
    ∀ (rest : List (Int × Int)) (acc : List (Int × Int)) (cur : Int × Int),
      List.Chain' (fun a b => a.2 + 1 < b.1) (acc ++ [cur]) →
      (∀ r ∈ acc ++ [cur], r.1 ≤ r.2) →
      (∀ r ∈ rest, r.1 ≤ r.2) →
      List.Pairwise (fun a b => a.1 ≤ b.1) (cur :: rest) →
      List.Chain' (fun a b => a.2 + 1 < b.1) (mergeLoop acc cur rest) ∧
        ∀ r ∈ mergeLoop acc cur rest, r.1 ≤ r.2 := by
  intro rest
  induction rest with
  | nil =>
    intro acc cur h1 h2 _ _
    exact ⟨h1, h2⟩
  | cons q rest' ih =>
    intro acc cur h1 h2 h3 h4
    rw [List.pairwise_cons] at h4
    simp only [mergeLoop]
    split
    · rename_i hle
      apply ih acc (cur.1, max cur.2 q.2)
      · rcases List.chain'_append.mp h1 with ⟨ha, _, hlink⟩
        refine List.chain'_append.mpr ⟨ha, by simp, ?_⟩
        intro x hx y hy
        simp only [List.head?_cons, Option.mem_def, Option.some_inj] at hy
        subst hy
        exact hlink x hx cur (by simp)
      · intro z hz
        rcases List.mem_append.mp hz with hz' | hz'
        · exact h2 z (List.mem_append.mpr (Or.inl hz'))
        · simp only [List.mem_singleton] at hz'
          subst hz'
          have hc : cur.1 ≤ cur.2 := h2 cur (List.mem_append.mpr (Or.inr (by simp)))
          simp only
          exact le_trans hc (le_max_left _ _)
      · intro z hz
        exact h3 z (by simp [hz])
      · rw [List.pairwise_cons]
        refine ⟨?_, h4.2.sublist (List.sublist_cons_self q rest')⟩
        intro z hz
        exact le_trans (h4.1 q (by simp)) ((List.pairwise_cons.mp h4.2).1 z hz)
    · rename_i hgt
      push_neg at hgt
      apply ih (acc ++ [cur]) q
      · refine List.chain'_append.mpr ⟨h1, by simp, ?_⟩
        intro x hx y hy
        simp only [List.head?_cons, Option.mem_def, Option.some_inj] at hy
        subst hy
        rw [List.getLast?_concat] at hx
        simp only [Option.mem_def, Option.some_inj] at hx
        subst hx
        exact hgt
      · intro z hz
        rcases List.mem_append.mp hz with hz' | hz'
        · exact h2 z hz'
        · simp only [List.mem_singleton] at hz'
          rw [hz']
          exact h3 q (by simp)
      · intro z hz
        exact h3 z (by simp [hz])
      · exact h4.2

theorem mergeRanges_invariant (rs : List (Int × Int))
    (h : ∀ r ∈ rs, r.1 ≤ r.2) :
    List.Chain' (fun a b => a.2 + 1 < b.1) (mergeRanges rs) ∧
      ∀ r ∈ mergeRanges rs, r.1 ≤ r.2 := by
  unfold mergeRanges
  cases hs : sortRanges rs with
  | nil => simp
  | cons hd tl =>
    have hsorted := pairwise_sortRanges rs
    rw [hs] at hsorted
    apply mergeLoop_invariant tl [] hd
    · simp
    · intro z hz
      simp only [List.nil_append, List.mem_singleton] at hz
      rw [hz]
      refine h hd (mem_sortRanges.mp ?_)
      rw [hs]
      exact List.mem_cons_self hd tl
    · intro z hz
      refine h z (mem_sortRanges.mp ?_)
      rw [hs]
      exact List.mem_cons_of_mem hd hz
    · exact hsorted

theorem processPatchLine_ranges {st st' : Int × List (Int × Int)} {line : PyStr}
    (h : processPatchLine st line = some st') :
    st'.2 = st.2 ∨ st'.2 = st.2 ++ [(st.1, st.1)] := by
  simp only [processPatchLine] at h
  split at h
  · split at h
    · split at h
      · exact absurd h (by simp)
      · rw [Option.some_inj] at h
        subst h
        left; rfl
    · rw [Option.some_inj] at h
      subst h
      left; rfl
  · split at h
    · rw [Option.some_inj] at h
      subst h
      right; rfl
    · split at h
      · rw [Option.some_inj] at h
        subst h
        left; rfl
      · rw [Option.some_inj] at h
        subst h
        left; rfl

theorem patchFold_valid :
    ∀ (lines : List PyStr) (st0 st : Int × List (Int × Int)),
      (∀ r ∈ st0.2, r.1 ≤ r.2) →
      lines.foldlM processPatchLine st0 = some st →
      ∀ r ∈ st.2, r.1 ≤ r.2 := by
  intro lines
  induction lines with
  | nil =>
    intro st0 st h0 h
    rw [List.foldlM_nil] at h
    have h' : st0 = st := by simpa using h
    subst h'
    exact h0
  | cons l rest ih =>
    intro st0 st h0 h
    rw [List.foldlM_cons] at h
    cases hp : processPatchLine st0 l with
    | none => rw [hp] at h; exact absurd h (by simp)
    | some st1 =>
      rw [hp] at h
      rw [show ((some st1 >>= fun s => rest.foldlM processPatchLine s) =
        rest.foldlM processPatchLine st1) from rfl] at h
      refine ih st1 st ?_ h
      rcases processPatchLine_ranges hp with he | he <;> rw [he]
      · exact h0
      · intro r hr
        rcases List.mem_append.mp hr with hr' | hr'
        · exact h0 r hr'
        · simp only [List.mem_singleton] at hr'
          rw [hr']

/-! ## Aggregator loop characterisation -/

theorem reviewLoop_calls (reviewFile : FileChange → List ReviewFinding)
    (maxTotal : Nat) :
    ∀ (files : List FileChange) (acc : List ReviewFinding),
      (reviewLoop reviewFile maxTotal files acc).2 =
        files.take ((List.range files.length).countP
          (fun i => acc.length + totalFindings reviewFile (files.take i) < maxTotal)) := by
  intro files
  induction files with
  | nil => intro acc; rfl
  | cons fc rest ih =>
    intro acc
    simp only [reviewLoop]
    split
    · rename_i hstop
      have hcount : (List.range (fc :: rest).length).countP
          (fun i => acc.length + totalFindings reviewFile ((fc :: rest).take i) < maxTotal) = 0 := by
        rw [List.countP_eq_zero]
        intro i _
        simp only [decide_eq_true_eq]
        have : totalFindings reviewFile ((fc :: rest).take i) ≥ 0 := Nat.zero_le _
        omega
      rw [hcount]
      rfl
    · rename_i hgo
      push_neg at hgo
      simp only [List.length_cons, List.range_succ_eq_map, List.countP_cons,
        List.countP_map]
      have hz : (decide (acc.length +
          totalFindings reviewFile ((fc :: rest).take 0) < maxTotal)) = true := by
        simp only [List.take_zero, decide_eq_true_eq]
        simp [totalFindings]
        omega
      rw [hz, if_pos rfl]
      have hshift : (List.range rest.length).countP
          ((fun i => decide (acc.length + totalFindings reviewFile ((fc :: rest).take i) < maxTotal)) ∘
            Nat.succ) =
          (List.range rest.length).countP
            (fun i => decide ((acc ++ reviewFile fc).length +
              totalFindings reviewFile (rest.take i) < maxTotal)) := by
        apply List.countP_congr
        intro i _
        simp only [Function.comp_apply, List.take_succ_cons, decide_eq_true_eq,
          List.length_append]
        constructor
        · intro hlt
          simp only [totalFindings, List.map_cons, List.sum_cons] at hlt
          simp only [totalFindings]
          omega
        · intro hlt
          simp only [totalFindings, List.map_cons, List.sum_cons]
          simp only [totalFindings] at hlt
          omega
      rw [hshift, ih (acc ++ reviewFile fc), List.take_succ_cons]

/-! ## Remaining component lemmas -/

theorem sevIdx_iff (s m : Severity) :
    (sevIdx s ≤ sevIdx m) ↔ sevAtLeastAsSevere s m := by
  cases s <;> cases m <;> decide

theorem fenceLoop_true_eq (lines : List PyStr) :
    fenceLoop lines true = lines.takeWhile (fun l => ¬ startsFence l) := by
  induction lines with
  | nil => rfl
  | cons l rest ih =>
    by_cases hf : startsFence l = true
    · rw [List.takeWhile_cons_of_neg (by simp [hf])]
      simp [fenceLoop, hf]
    · rw [List.takeWhile_cons_of_pos (by simp [hf])]
      simp [fenceLoop, hf, ih]

theorem fenceLoop_false_eq (lines : List PyStr) :
    fenceLoop lines false = amendedFenceContent lines := by
  induction lines with
  | nil => rfl
  | cons l rest ih =>
    by_cases hf : startsFence l = true
    · have hL : fenceLoop (l :: rest) false = fenceLoop rest true := by
        simp [fenceLoop, hf]
      rw [hL, fenceLoop_true_eq]
      unfold amendedFenceContent
      rw [List.dropWhile_cons_of_neg (by simp [hf])]
      simp
    · have hL : fenceLoop (l :: rest) false = fenceLoop rest false := by
        simp [fenceLoop, hf]
      rw [hL, ih]
      unfold amendedFenceContent
      rw [List.dropWhile_cons_of_pos (by simp [hf])]

theorem extract_eq_amended (text : PyStr) :
    _extract_fixed_content text = amendedExtract text := by
  unfold _extract_fixed_content amendedExtract
  simp only [fenceLoop_false_eq]

theorem parseFindingItems_eq_filterMap (items : List Json) :
    parseFindingItems items = items.filterMap validateFinding := by
  induction items with
  | nil => rfl
  | cons item rest ih =>
    simp only [parseFindingItems, List.filterMap_cons]
    cases validateFinding item with
    | none => exact ih
    | some f => rw [ih]

theorem any_glob_eq (filename : PyStr) :
    ∀ patterns : List PyStr,
      (patterns.any (fun pattern =>
        fnmatch filename pattern ||
          (pattern.contains '/' && fnmatch filename pattern))) =
      patterns.any (fun pattern => fnmatch filename pattern) := by
  intro patterns
  induction patterns with
  | nil => rfl
  | cons p ps ih =>
    simp only [List.any_cons, ih]
    cases h : fnmatch filename p <;> simp [h]

theorem is_excluded_eq (filename : PyStr) (patterns : List PyStr) :
    _is_excluded filename patterns =
      patterns.any (fun pattern => fnmatch filename pattern) :=
  any_glob_eq filename patterns

theorem filter_files_loop_eq (cfg : ReviewConfig) :
    ∀ files : List FileChange,
      filter_files_loop cfg files = files.filter (specEligible cfg) := by
  intro files
  induction files with
  | nil => rfl
  | cons fc rest ih =>
    simp only [filter_files_loop]
    by_cases h1 : fc.status = pys "removed"
    · rw [if_pos h1, ih, List.filter_cons, if_neg (by simp [specEligible, h1])]
    · rw [if_neg h1]
      by_cases h2 : _is_excluded fc.filename cfg.exclude_patterns = true
      · have hex : (cfg.exclude_patterns.any fun pattern =>
            fnmatch fc.filename pattern) = true := by
          rw [← is_excluded_eq]
          exact h2
        rw [if_pos h2, ih, List.filter_cons, if_neg (by simp [specEligible, h1, hex])]
      · have hex : (cfg.exclude_patterns.any fun pattern =>
            fnmatch fc.filename pattern) = false := by
          rw [← is_excluded_eq]
          simpa using h2
        rw [if_neg h2]
        by_cases h3 : fc.patch = none
        · rw [if_pos h3, ih, List.filter_cons, if_neg (by
            simp [specEligible, h1, hex, h3])]
        · rw [if_neg h3, ih, List.filter_cons, if_pos (by
            simp [specEligible, h1, hex, Option.isSome_iff_ne_none, h3])]

/-! ## Poller step lemmas -/

theorem waitLoop_step (polls : Nat → List TestResult)
    (interval timeout fuel elapsed k : Nat) (he : elapsed < timeout)
    (hp : ¬(polls k ≠ [] ∧ (polls k).all (fun r => r.status == pys "completed") = true)) :
    waitLoop polls interval timeout (fuel + 1) elapsed k =
      waitLoop polls interval timeout fuel (elapsed + interval) (k + 1) := by
  simp only [waitLoop]
  rw [if_pos he]
  by_cases hpk : polls k = []
  · rw [if_pos hpk]
  · rw [if_neg hpk]
    have hall : ((polls k).all (fun r => r.status == pys "completed")) = false := by
      cases hc : (polls k).all (fun r => r.status == pys "completed") with
      | true => exact absurd ⟨hpk, hc⟩ hp
      | false => rfl
    rw [hall]
    simp

theorem waitLoop_timeout (polls : Nat → List TestResult)
    (interval timeout fuel elapsed k : Nat) (he : ¬ elapsed < timeout) :
    waitLoop polls interval timeout (fuel + 1) elapsed k = some (polls k, k + 1) := by
  simp only [waitLoop]
  rw [if_neg he]

theorem chain'_lt_of_sep :
    ∀ l : List (Int × Int), List.Chain' (fun a b => a.2 + 1 < b.1) l →
      (∀ r ∈ l, r.1 ≤ r.2) → List.Chain' (fun a b => a.1 < b.1) l := by
  intro l
  induction l with
  | nil => intro _ _; simp
  | cons x rest ih =>
    cases rest with
    | nil => intro _ _; simp
    | cons y rest' =>
      intro hc hv
      rw [List.chain'_cons] at hc ⊢
      constructor
      · have hx := hv x (by simp)
        have := hc.1
        omega
      · exact ih hc.2 (fun r hr => hv r (by simp [hr]))

/-! ## Concrete demonstration data -/

/-- A baseline configuration mirroring the pydantic defaults. -/
def demoConfig : ReviewConfig :=
  ⟨Severity.low, 10, 50, [], pys "ai-fix", pys "automated", true,
    pys "ai-fix/", 10, true, 300, 30⟩

/-- A concrete finding with no suggested fix. -/
def demoFinding : ReviewFinding :=
  ⟨pys "a.py", none, Severity.medium, Category.correctness, pys "t", pys "d", none⟩

/-- A modified file with an (empty) patch. -/
def mkChange (s : String) : FileChange :=
  ⟨pys s, pys "modified", some [], 0, 0, none, none⟩

/-- Configuration for the C1 scenario: poll interval 10, timeout 60. -/
def c1Cfg : ReviewConfig :=
  { demoConfig with test_check_timeout := 60, test_check_poll_interval := 10 }

/-- A check-run oracle whose every poll returns one in-progress check. -/
def c1BadPolls : Nat → List TestResult :=
  fun _ => [⟨pys "ci", pys "in_progress", none⟩]

/-- The response of the C2 counterexample: four fence-marker lines. -/
def c2Text : PyStr := pys "```\na\n```\nmid\n```\nb\n```"

/-- Configuration with `max_total_findings = 2`. -/
def c3Cfg : ReviewConfig := { demoConfig with max_total_findings := 2 }

/-- A model oracle yielding exactly one finding per file. -/
def c3Oracle : FileChange → List ReviewFinding := fun _ => [demoFinding]

/-- Five reviewable files. -/
def c3Files : List FileChange :=
  [mkChange "a.py", mkChange "b.py", mkChange "c.py", mkChange "d.py", mkChange "e.py"]

/-- Findings of the three severities used by the C5 witness. -/
def c5Findings : List ReviewFinding :=
  [demoFinding, { demoFinding with severity := Severity.critical },
    { demoFinding with severity := Severity.low }]

/-- A valid finding object. -/
def c6Good : Json :=
  Json.obj [(pys "file", Json.str (pys "a.py")),
    (pys "severity", Json.str (pys "high")),
    (pys "category", Json.str (pys "security")),
    (pys "title", Json.str (pys "t")),
    (pys "description", Json.str (pys "d"))]

/-- An invalid finding object (unknown severity). -/
def c6Bad : Json :=
  Json.obj [(pys "file", Json.str (pys "b.py")),
    (pys "severity", Json.str (pys "banana")),
    (pys "category", Json.str (pys "security")),
    (pys "title", Json.str (pys "t2")),
    (pys "description", Json.str (pys "d2"))]

/-- The `ReviewFinding` that `c6Good` validates to. -/
def c6GoodFinding : ReviewFinding :=
  ⟨pys "a.py", none, Severity.high, Category.security, pys "t", pys "d", none⟩

/-- The two concrete patches of the spec's round-trip examples. -/
def c8Patch1 : PyStr := pys "@@ -0,0 +1,3 @@\n+a\n+b\n+c"

/-- Second round-trip example: context, removal, two additions, context. -/
def c8Patch2 : PyStr := pys "@@ -10,4 +10,5 @@\n ctx\n-old\n+new1\n+new2\n ctx2"

/-- A structured diff exercising all four line kinds. -/
def c8Demo : List DiffLine :=
  [DiffLine.hunk 3 2 5 4, DiffLine.ctx (pys "x"), DiffLine.add (pys "y"),
    DiffLine.rem (pys "z"), DiffLine.add (pys "w")]

/-- A collaborator environment whose reads fail and whose mutations
succeed trivially (only exercised by the no-fix short-circuit). -/
def demoEnv : FixEnv :=
  ⟨fun _ _ => Except.ok (), fun _ _ => none, fun _ _ => none,
    fun _ _ _ => Except.error [], fun _ _ _ _ _ => Except.ok (),
    fun _ _ _ _ _ => Except.ok []⟩

/-- A concrete change request. -/
def demoPr : PRInfo :=
  ⟨42, pys "T", none, pys "alice", pys "feat", pys "main", pys "abc123", [], []⟩

/-- Unsorted, partly overlapping ranges for the C10 witness. -/
def c10Demo : List (Int × Int) := [(5, 7), (1, 2), (3, 3), (20, 25)]

/-- A two-line addition patch for the C10 witness. -/
def c10Patch : PyStr := pys "@@ -0,0 +1,2 @@\n+x\n+y"

/-! ## Claim theorems -/

/-- Claim C1, counterexample: with poll interval 10 and timeout 60 and an
oracle whose every poll returns a non-empty incomplete set (so in
particular every poll before the 6th is incomplete), `wait_for_checks`
issues 7 check-run listing calls, refuting the claimed bound of at most
6 polls in total; the returned set is the final (7th) fetch. -/
theorem c1_counterexample :
    wait_for_checks c1Cfg c1BadPolls =
      some ([⟨pys "ci", pys "in_progress", none⟩], 7) ∧ ¬ (7 ≤ 6) := by
  constructor
  · decide
  · decide

/-- Claim C1 as amended: with poll interval 10 and timeout 60, when each
of the six in-loop polls returns an incomplete set, the poller performs
exactly 7 listing calls — 6 polls inside the loop plus one final
re-fetch after the timeout — and returns that last-fetched (possibly
incomplete) result set verbatim. -/
theorem c1_timeout_polls (polls : Nat → List TestResult)
    (h : ∀ k, k < 6 →
      ¬(polls k ≠ [] ∧ (polls k).all (fun r => r.status == pys "completed") = true)) :
    wait_for_checks c1Cfg polls = some (polls 6, 7) := by
  unfold wait_for_checks
  rw [if_neg (by decide)]
  show waitLoop polls 10 60 61 0 0 = some (polls 6, 7)
  rw [waitLoop_step polls 10 60 60 0 0 (by omega) (h 0 (by omega))]
  rw [waitLoop_step polls 10 60 59 10 1 (by omega) (h 1 (by omega))]
  rw [waitLoop_step polls 10 60 58 20 2 (by omega) (h 2 (by omega))]
  rw [waitLoop_step polls 10 60 57 30 3 (by omega) (h 3 (by omega))]
  rw [waitLoop_step polls 10 60 56 40 4 (by omega) (h 4 (by omega))]
  rw [waitLoop_step polls 10 60 55 50 5 (by omega) (h 5 (by omega))]
  exact waitLoop_timeout polls 10 60 54 60 6 (by omega)

/-- Witness for C1's amended theorem at the concrete incomplete oracle. -/
theorem c1_timeout_polls_witness :
    (∀ k, k < 6 → ¬(c1BadPolls k ≠ [] ∧
      (c1BadPolls k).all (fun r => r.status == pys "completed") = true)) ∧
    wait_for_checks c1Cfg c1BadPolls = some (c1BadPolls 6, 7) :=
  ⟨by decide, c1_timeout_polls c1BadPolls (by decide)⟩

/-- Claim C2, counterexample: on a response with four fence-marker lines
the source extractor returns the first fenced block (with a trailing
newline), not the content between the first and last markers that the
claim describes. -/
theorem c2_counterexample :
    _extract_fixed_content c2Text = some (pys "a\n") ∧
    claimExtract c2Text = some (pys "a\n```\nmid\n```\nb") ∧
    _extract_fixed_content c2Text ≠ claimExtract c2Text := by
  refine ⟨by decide, by decide, by decide⟩

/-- Claim C2 as amended: `_extract_fixed_content` returns the
`fixed_content` string when the whole stripped response parses as a JSON
object carrying that field; otherwise, when the response contains fence
markers, the lines after the first fence-marker line up to (not
including) the next fence-marker line — or to the end when none follows —
joined with a trailing newline appended, provided that block is
non-empty; otherwise no result. -/
theorem c2_extract_amended :
    ∀ text : PyStr, _extract_fixed_content text = amendedExtract text :=
  fun text => extract_eq_amended text

/-- Claim C3: the aggregator sends files to the model exactly while the
running total of unfiltered findings is below `max_total_findings` —
the files sent form the prefix of the input over indices whose preceding
findings total is below the cap — and for `max_total_findings = 2` with
5 files yielding one finding each, at most 2 findings are returned and
exactly the first 2 files were ever sent. -/
theorem c3_cap_short_circuit :
    (∀ (reviewFile : FileChange → List ReviewFinding) (files : List FileChange)
       (cfg : ReviewConfig),
       review_pr_calls reviewFile files cfg =
         files.take ((List.range files.length).countP
           (fun i => totalFindings reviewFile (files.take i) < cfg.max_total_findings))) ∧
    (review_pr c3Oracle c3Files c3Cfg).length ≤ 2 ∧
    (review_pr_calls c3Oracle c3Files c3Cfg).length ≤ 2 ∧
    review_pr_calls c3Oracle c3Files c3Cfg = c3Files.take 2 := by
  refine ⟨?_, by decide, by decide, by decide⟩
  intro reviewFile files cfg
  unfold review_pr_calls
  rw [reviewLoop_calls]
  congr 1
  apply List.countP_congr
  intro i _
  simp

/-- Claim C4: the final severity filter keeps a finding iff its severity
is at least as severe as the configured minimum under
critical > high > medium > low, equivalently iff its position in
`severity_order` is at most the minimum's position. -/
theorem c4_severity_filter :
    (∀ (findings : List ReviewFinding) (minSev : Severity),
       filterBySeverity findings minSev =
         findings.filter (fun f => decide (sevAtLeastAsSevere f.severity minSev))) ∧
    ∀ s m : Severity, (sevIdx s ≤ sevIdx m ↔ sevAtLeastAsSevere s m) := by
  constructor
  · intro findings minSev
    unfold filterBySeverity
    apply List.filter_congr
    intro f _
    exact decide_eq_decide.mpr (sevIdx_iff f.severity minSev)
  · exact sevIdx_iff

/-- Claim C5: strictly raising the configured minimum severity toward
critical never increases the number of findings the severity filter
keeps. -/
theorem c5_filter_monotone (findings : List ReviewFinding) (m1 m2 : Severity)
    (h : specSevRank m2 < specSevRank m1) :
    (filterBySeverity findings m1).length ≤ (filterBySeverity findings m2).length := by
  have hidx : sevIdx m1 ≤ sevIdx m2 := by
    revert h
    cases m1 <;> cases m2 <;> decide
  unfold filterBySeverity
  refine (List.monotone_filter_right findings (fun f hf => ?_)).length_le
  simp only [decide_eq_true_eq] at hf ⊢
  omega

/-- Witness for C5 at a concrete finding list, raising low to high. -/
theorem c5_filter_monotone_witness :
    specSevRank Severity.low < specSevRank Severity.high ∧
    (filterBySeverity c5Findings Severity.high).length ≤
      (filterBySeverity c5Findings Severity.low).length :=
  ⟨by decide, c5_filter_monotone c5Findings Severity.high Severity.low (by decide)⟩

/-- Claim C6: finding parsing is per-item tolerant — over any parsed
findings list (a direct JSON array or the `findings` entry of an object)
the result is exactly the per-item validations that succeed, in order;
one valid and one invalid sibling yield exactly the valid finding. -/
theorem c6_per_item_tolerant :
    (∀ items : List Json,
       parseFindingItems items = items.filterMap validateFinding) ∧
    (∀ items : List Json,
       parse_findings (Json.arr items) = some (items.filterMap validateFinding)) ∧
    (∀ items : List Json,
       parse_findings (Json.obj [(pys "findings", Json.arr items)]) =
         some (items.filterMap validateFinding)) ∧
    parse_findings (Json.arr [c6Good, c6Bad]) = some [c6GoodFinding] := by
  refine ⟨parseFindingItems_eq_filterMap, ?_, ?_, by rfl⟩
  · intro items
    exact congrArg some (parseFindingItems_eq_filterMap items)
  · intro items
    exact congrArg some (parseFindingItems_eq_filterMap items)

/-- Claim C7: `filter_files` returns exactly the ordered sub-sequence of
the input files that are not removed, match no exclusion pattern and
carry a patch; the output is a sublist (order-preserving selection) of
the input, and membership is characterised by the three conditions. -/
theorem c7_filter_files :
    ∀ (pr_info : PRInfo) (cfg : ReviewConfig),
      filter_files pr_info cfg = pr_info.files.filter (specEligible cfg) ∧
      List.Sublist (filter_files pr_info cfg) pr_info.files ∧
      ∀ fc : FileChange, fc ∈ filter_files pr_info cfg ↔
        fc ∈ pr_info.files ∧ specEligible cfg fc = true := by
  intro pr_info cfg
  have he := filter_files_loop_eq cfg pr_info.files
  refine ⟨he, ?_, ?_⟩
  · rw [show filter_files pr_info cfg = filter_files_loop cfg pr_info.files from rfl, he]
    exact List.filter_sublist _
  · intro fc
    rw [show filter_files pr_info cfg = filter_files_loop cfg pr_info.files from rfl, he]
    exact List.mem_filter

/-- Claim C8: on well-formed patches the string scan of
`parse_patch_line_numbers` computes exactly the spec's counter algorithm
followed by range merging; in particular the two round-trip examples
evaluate to `[(1,3)]` and `[(11,12)]`. -/
theorem c8_patch_ranges :
    (∀ lines : List DiffLine, (∀ l ∈ lines, wfLine l) →
       parse_patch_line_numbers (renderPatch lines) =
         some (mergeRanges (specCollect lines))) ∧
    parse_patch_line_numbers c8Patch1 = some [(1, 3)] ∧
    parse_patch_line_numbers c8Patch2 = some [(11, 12)] :=
  ⟨parse_render_eq_spec, by rfl, by rfl⟩

/-- Witness for C8's refinement on a structured diff with all four line
kinds. -/
theorem c8_patch_ranges_witness :
    (∀ l ∈ c8Demo, wfLine l) ∧
    parse_patch_line_numbers (renderPatch c8Demo) =
      some (mergeRanges (specCollect c8Demo)) :=
  ⟨by decide, c8_patch_ranges.1 c8Demo (by decide)⟩

/-- Claim C9: when no finding carries a suggested fix, `generate_fix_pr`
returns no URL and issues no mutating hosting call at all. -/
theorem c9_no_fix_short_circuit (env : FixEnv) (findings : List ReviewFinding)
    (pr_info : PRInfo) (cfg : ReviewConfig)
    (h : ∀ f ∈ findings, f.suggested_fix = none) :
    generate_fix_pr env findings pr_info cfg = (none, []) := by
  unfold generate_fix_pr
  rw [show findings.filter (fun f => pyTruthyStr f.suggested_fix) = [] from
    List.filter_eq_nil_iff.mpr (fun f hf => by simp [pyTruthyStr, h f hf])]
  rw [if_pos rfl]

/-- Witness for C9 at a concrete environment and finding list. -/
theorem c9_no_fix_short_circuit_witness :
    (∀ f ∈ [demoFinding], f.suggested_fix = none) ∧
    generate_fix_pr demoEnv [demoFinding] demoPr demoConfig = (none, []) :=
  ⟨by decide, c9_no_fix_short_circuit demoEnv [demoFinding] demoPr demoConfig (by decide)⟩

/-- Claim C10: for inputs whose ranges satisfy start ≤ end, the output
of `_merge_ranges` — and hence of `parse_patch_line_numbers` — is
strictly increasing by start, each range satisfies start ≤ end, and
consecutive ranges are neither overlapping nor adjacent (the next start
exceeds the previous end by at least 2). -/
theorem c10_merge_invariant :
    (∀ rs : List (Int × Int), (∀ r ∈ rs, r.1 ≤ r.2) →
       List.Chain' (fun a b => a.1 < b.1) (mergeRanges rs) ∧
       (∀ r ∈ mergeRanges rs, r.1 ≤ r.2) ∧
       List.Chain' (fun a b => a.2 + 1 < b.1) (mergeRanges rs)) ∧
    ∀ (patch : PyStr) (out : List (Int × Int)),
      parse_patch_line_numbers patch = some out →
      List.Chain' (fun a b => a.1 < b.1) out ∧
      (∀ r ∈ out, r.1 ≤ r.2) ∧
      List.Chain' (fun a b => a.2 + 1 < b.1) out := by
  have main : ∀ rs : List (Int × Int), (∀ r ∈ rs, r.1 ≤ r.2) →
      List.Chain' (fun a b => a.1 < b.1) (mergeRanges rs) ∧
      (∀ r ∈ mergeRanges rs, r.1 ≤ r.2) ∧
      List.Chain' (fun a b => a.2 + 1 < b.1) (mergeRanges rs) := by
    intro rs h
    obtain ⟨hsep, hval⟩ := mergeRanges_invariant rs h
    exact ⟨chain'_lt_of_sep _ hsep hval, hval, hsep⟩
  refine ⟨main, ?_⟩
  intro patch out h
  unfold parse_patch_line_numbers at h
  cases hf : (pySplit (pys "\n") patch).foldlM processPatchLine ((0 : Int), []) with
  | none => rw [hf] at h; exact absurd h (by simp)
  | some st =>
    rw [hf] at h
    simp only [Option.map_some', Option.some_inj] at h
    have hv := patchFold_valid _ _ _ (by simp) hf
    rw [← h]
    exact main st.2 hv

/-- Witness for C10 on concrete unsorted ranges and on a concrete
patch. -/
theorem c10_merge_invariant_witness :
    ((∀ r ∈ c10Demo, r.1 ≤ r.2) ∧
      List.Chain' (fun a b => a.1 < b.1) (mergeRanges c10Demo) ∧
      (∀ r ∈ mergeRanges c10Demo, r.1 ≤ r.2) ∧
      List.Chain' (fun a b => a.2 + 1 < b.1) (mergeRanges c10Demo)) ∧
    parse_patch_line_numbers c10Patch = some [(1, 2)] ∧
    (List.Chain' (fun a b => a.1 < b.1) [((1 : Int), (2 : Int))] ∧
      (∀ r ∈ [((1 : Int), (2 : Int))], r.1 ≤ r.2) ∧
      List.Chain' (fun a b => a.2 + 1 < b.1) [((1 : Int), (2 : Int))]) :=
  ⟨⟨by decide, c10_merge_invariant.1 c10Demo (by decide)⟩, by rfl,
    c10_merge_invariant.2 c10Patch [(1, 2)] (by rfl)⟩
